import Mathlib

/-
  Verification of the bitcoin-rpc-types schema layer.

  The development shallowly embeds the two source modules:
  - src/types.rs: the schema data model (ApiDefinition, BtcMethod, BtcArgument,
    BtcResult), its serde-derive deserialization semantics, the SchemaError
    taxonomy and the ApiDefinition::from_file loading pipeline;
  - src/hash_or_height.rs: the HashOrHeight untagged union and its
    serde round-trip contract.

  External collaborators (the file system and the textual JSON codec) are
  modelled as explicit function parameters, as the code treats them as
  opaque dependencies.  JSON documents are modelled by an inductive value
  type; serde-derive field semantics (renames, defaults, ignored unknown
  fields) are translated from the struct definitions in src/types.rs.
-/

/-- A JSON value.  Numbers are modelled as integers, which covers every
number shape the claims exercise (the schema layer decodes no fractional
field). -/
inductive Json where
  | null
  | bool (b : Bool)
  | num (n : Int)
  | str (s : String)
  | arr (xs : List Json)
  | obj (fields : List (String × Json))

/-- First binding of a key in a JSON object, the view serde uses for the
fields it knows; unknown fields are simply never looked up (serde-derive
without deny_unknown_fields ignores them). -/
def lookupField : List (String × Json) → String → Option Json
  | [], _ => none
  | (k, v) :: rest, key => if k = key then some v else lookupField rest key

/-- Decode a mandatory string field (serde: required, no default). -/
def getStr : Option Json → Option String
  | some (.str s) => some s
  | _ => none

/-- Decode an optional string field defaulting to the empty string
(serde: #[serde(default)] on a String field). -/
def getStrD : Option Json → Option String
  | none => some ""
  | some (.str s) => some s
  | some _ => none

/-- Decode a mandatory boolean field. -/
def getBool : Option Json → Option Bool
  | some (.bool b) => some b
  | _ => none

/-- Decode an optional boolean field defaulting to false
(serde: #[serde(default)] on a bool field). -/
def getBoolD : Option Json → Option Bool
  | none => some false
  | some (.bool b) => some b
  | some _ => none

/-- Decode a JSON array of strings. -/
def getStrElems : List Json → Option (List String)
  | [] => some []
  | .str s :: rest =>
    match getStrElems rest with
    | some ss => some (s :: ss)
    | none => none
  | _ :: _ => none

/-- Decode a mandatory Vec<String> field. -/
def getStrList : Option Json → Option (List String)
  | some (.arr xs) => getStrElems xs
  | _ => none

/-- Decode an optional Vec<String> field defaulting to the empty list
(serde: #[serde(default)] on a Vec<String> field). -/
def getStrListD : Option Json → Option (List String)
  | none => some []
  | some (.arr xs) => getStrElems xs
  | some _ => none

/-- Decode an Option<Vec<String>> field with #[serde(default)]: absent or
null decodes to None, an array of strings decodes to Some. -/
def getOptStrList : Option Json → Option (Option (List String))
  | none => some none
  | some .null => some none
  | some (.arr xs) =>
    match getStrElems xs with
    | some ss => some (some ss)
    | none => none
  | some _ => none

/-- Bitcoin method argument specification (struct BtcArgument in
src/types.rs). -/
structure BtcArgument where
  names : List String
  description : String
  oneline_description : String
  also_positional : Bool
  type_str : Option (List String)
  required : Bool
  hidden : Bool
  type_ : String

/-- serde-derive deserialization of BtcArgument, following the field
attributes of src/types.rs lines 13-36: names, description, required and
type (renamed to type_) are mandatory; oneline_description,
also_positional, type_str and hidden take defaults when absent. -/
def deserArgument (j : Json) : Option BtcArgument :=
  match j with
  | .obj fields => do
    let names ← getStrList (lookupField fields "names")
    let description ← getStr (lookupField fields "description")
    let oneline ← getStrD (lookupField fields "oneline_description")
    let alsoPos ← getBoolD (lookupField fields "also_positional")
    let typeStr ← getOptStrList (lookupField fields "type_str")
    let req ← getBool (lookupField fields "required")
    let hidden ← getBoolD (lookupField fields "hidden")
    let type_ ← getStr (lookupField fields "type")
    some ⟨names, description, oneline, alsoPos, typeStr, req, hidden, type_⟩
  | _ => none

/-- Bitcoin method result specification (struct BtcResult in src/types.rs
lines 39-61): a recursive tree, children in inner.  The struct stores no
required flag; requiredness is the computed getter below. -/
inductive BtcResult where
  | mk (type_ : String) (optional : Bool) (description : String)
      (skip_type_check : Bool) (key_name : String) (condition : String)
      (inner : List BtcResult)

def BtcResult.type_ : BtcResult → String
  | .mk t _ _ _ _ _ _ => t

def BtcResult.optional : BtcResult → Bool
  | .mk _ o _ _ _ _ _ => o

def BtcResult.description : BtcResult → String
  | .mk _ _ d _ _ _ _ => d

def BtcResult.skip_type_check : BtcResult → Bool
  | .mk _ _ _ s _ _ _ => s

def BtcResult.key_name : BtcResult → String
  | .mk _ _ _ _ k _ _ => k

def BtcResult.condition : BtcResult → String
  | .mk _ _ _ _ _ c _ => c

def BtcResult.inner : BtcResult → List BtcResult
  | .mk _ _ _ _ _ _ i => i

/-- Source getter, src/types.rs line 93: requiredness is computed from
optional, `fn required(&self) -> bool` returning the negation of optional. -/
def BtcResult.required (r : BtcResult) : Bool := !r.optional

/-- serde-derive deserialization of BtcResult (field attributes of
src/types.rs lines 39-61): type and description are mandatory; optional,
skip_type_check, key_name, condition and inner take defaults when absent.
The struct declares no serde field named "required", so such an input
field is an unknown field and is ignored.  The fuel argument bounds the
recursion depth through inner; every textual document of length L nests
fewer than L levels deep, so the loader passes the content length. -/
def deserResultF : Nat → Json → Option BtcResult
  | 0, _ => none
  | fuel + 1, .obj fields => do
    let type_ ← getStr (lookupField fields "type")
    let opt ← getBoolD (lookupField fields "optional")
    let description ← getStr (lookupField fields "description")
    let stc ← getBoolD (lookupField fields "skip_type_check")
    let keyName ← getStrD (lookupField fields "key_name")
    let cond ← getStrD (lookupField fields "condition")
    let inner ← match lookupField fields "inner" with
      | none => some []
      | some (.arr xs) => xs.mapM (deserResultF fuel)
      | some _ => none
    some (.mk type_ opt description stc keyName cond inner)
  | _ + 1, _ => none

/-- Bitcoin method definition (struct BtcMethod in src/types.rs
lines 97-113). -/
structure BtcMethod where
  name : String
  description : String
  examples : String
  argument_names : List String
  arguments : List BtcArgument
  results : List BtcResult

/-- serde-derive deserialization of BtcMethod: name, description,
arguments and results are mandatory; examples and argument_names take
defaults when absent. -/
def deserMethodF (fuel : Nat) (j : Json) : Option BtcMethod :=
  match j with
  | .obj fields => do
    let name ← getStr (lookupField fields "name")
    let description ← getStr (lookupField fields "description")
    let examples ← getStrD (lookupField fields "examples")
    let argNames ← getStrListD (lookupField fields "argument_names")
    let args ← match lookupField fields "arguments" with
      | some (.arr xs) => xs.mapM deserArgument
      | _ => none
    let results ← match lookupField fields "results" with
      | some (.arr xs) => xs.mapM (deserResultF fuel)
      | _ => none
    some ⟨name, description, examples, argNames, args, results⟩
  | _ => none

/-- A collection of all Bitcoin RPC methods (struct ApiDefinition in
src/types.rs lines 116-120): a BTreeMap from method name to method,
modelled as a name-sorted association list. -/
structure ApiDefinition where
  rpcs : List (String × BtcMethod)

/-- BTreeMap::insert on the sorted-association-list model: keeps keys
strictly increasing, replaces the bound method on an existing key. -/
def insertSorted (k : String) (m : BtcMethod) : List (String × BtcMethod) → List (String × BtcMethod)
  | [] => [(k, m)]
  | (k2, m2) :: rest =>
    if k < k2 then (k, m) :: (k2, m2) :: rest
    else if k = k2 then (k, m) :: rest
    else (k2, m2) :: insertSorted k m rest

/-- Deserialize the entries of the rpcs object in document order,
inserting each into the map (BTreeMap deserialization). -/
def deserRpcsF (fuel : Nat) : List (String × Json) → List (String × BtcMethod) → Option (List (String × BtcMethod))
  | [], acc => some acc
  | (k, v) :: rest, acc =>
    match deserMethodF fuel v with
    | some m => deserRpcsF fuel rest (insertSorted k m acc)
    | none => none

/-- serde-derive deserialization of ApiDefinition: a single mandatory
field rpcs holding an object of methods. -/
def deserApiDefinitionF (fuel : Nat) (j : Json) : Option ApiDefinition :=
  match j with
  | .obj fields =>
    match lookupField fields "rpcs" with
    | some (.obj mfields) =>
      match deserRpcsF fuel mfields [] with
      | some l => some ⟨l⟩
      | none => none
    | _ => none
  | _ => none

/-- Map lookup on the association-list model of the BTreeMap. -/
def findEntry : List (String × BtcMethod) → String → Option BtcMethod
  | [], _ => none
  | (k, m) :: rest, name => if k = name then some m else findEntry rest name

/-- Source lookup, src/types.rs line 134: `get_method(name)` returns
`self.rpcs.get(name)`. -/
def ApiDefinition.get_method (d : ApiDefinition) (name : String) : Option BtcMethod :=
  findEntry d.rpcs name

/-- Error types for schema operations (enum SchemaError in src/types.rs
lines 138-147): a JSON parsing error or an I/O error, each wrapping the
underlying cause, here kept as its message. -/
inductive SchemaError where
  | JsonParse (msg : String)
  | Io (msg : String)

/-- Source loader `ApiDefinition::from_file`, src/types.rs lines 127-131:
read the full textual content at the path (any read failure converts into
SchemaError::Io), deserialize it with serde_json (any parse failure, at
the syntactic or at the structural stage, converts into
SchemaError::JsonParse), and return the definition.  The file system fs
and the textual stage dec of the JSON codec are the opaque external
collaborators; the structural stage is the serde-derive semantics above,
run with fuel content.length + 1, which bounds every nesting depth a text
of that length can encode. -/
def from_file (fs : String → Except String String)
    (dec : String → Except String Json) (path : String) :
    Except SchemaError ApiDefinition :=
  match fs path with
  | .error e => .error (.Io e)
  | .ok content =>
    match dec content with
    | .error e => .error (.JsonParse e)
    | .ok j =>
      match deserApiDefinitionF (content.length + 1) j with
      | none => .error (.JsonParse "data did not match the expected structure")
      | some d => .ok d

/-- A block hash (bitcoin::BlockHash): a fixed 32-byte identifier, kept
here as its byte list in internal order. -/
structure BlockHash where
  bytes : List Nat

/-- The payload shapes bitcoin::BlockHash can hold: exactly 32 bytes. -/
def ValidBlockHash (h : BlockHash) : Prop :=
  h.bytes.length = 32 ∧ ∀ b ∈ h.bytes, b < 256

/-- enum HashOrHeight — src/hash_or_height.rs lines 15-22: either a block
hash or a block height (u32), serialized with #[serde(untagged)]. -/
inductive HashOrHeight where
  | Hash (h : BlockHash)
  | Height (n : Nat)

/-- Source predicate `is_hash`: true exactly on the Hash variant. -/
def HashOrHeight.is_hash : HashOrHeight → Bool
  | .Hash _ => true
  | .Height _ => false

/-- Source predicate `is_height`: true exactly on the Height variant. -/
def HashOrHeight.is_height : HashOrHeight → Bool
  | .Hash _ => false
  | .Height _ => true

/-- Source projection `as_hash`: the payload when the active variant is
Hash, otherwise None. -/
def HashOrHeight.as_hash : HashOrHeight → Option BlockHash
  | .Hash h => some h
  | .Height _ => none

/-- Source projection `as_height`: the payload when the active variant is
Height, otherwise None. -/
def HashOrHeight.as_height : HashOrHeight → Option Nat
  | .Hash _ => none
  | .Height n => some n

/-- Source conversion from a raw BlockHash, producing the Hash variant. -/
def HashOrHeight.fromBlockHash (h : BlockHash) : HashOrHeight := .Hash h

/-- Source conversion from a raw u32, producing the Height variant. -/
def HashOrHeight.fromU32 (n : Nat) : HashOrHeight := .Height n

/-- Value of one hexadecimal digit, both letter cases accepted, as the
hex decoder behind bitcoin::BlockHash parsing accepts; expressed on the
code point of the character. -/
def hexDigitToNat (c : Char) : Option Nat :=
  if 48 <= c.toNat && c.toNat <= 57 then some (c.toNat - 48)
  else if 97 <= c.toNat && c.toNat <= 102 then some (c.toNat - 87)
  else if 65 <= c.toNat && c.toNat <= 70 then some (c.toNat - 55)
  else none

/-- Lower-case hexadecimal digit for a value below 16, as the Display
implementation behind bitcoin::BlockHash serialization emits. -/
def natToHexDigit (n : Nat) : Char :=
  if n < 10 then Char.ofNat (48 + n)
  else if n < 16 then Char.ofNat (87 + n)
  else Char.ofNat 48

/-- Hex encoding of a byte list, two digits per byte, high digit first. -/
def bytesToHex : List Nat → List Char
  | [] => []
  | b :: rest => natToHexDigit (b / 16) :: natToHexDigit (b % 16) :: bytesToHex rest

/-- Hex decoding back into bytes; fails on an odd length or a non-hex
character. -/
def hexToBytes : List Char → Option (List Nat)
  | [] => some []
  | [_] => none
  | c1 :: c2 :: rest =>
    match hexDigitToNat c1, hexDigitToNat c2, hexToBytes rest with
    | some d1, some d2, some bs => some ((d1 * 16 + d2) :: bs)
    | _, _, _ => none

/-- Textual form of a BlockHash: 64 hex digits in reversed byte order
(bitcoin hashes display backwards). -/
def serBlockHash (h : BlockHash) : String := String.mk (bytesToHex h.bytes.reverse)

/-- Parsing a BlockHash from text: exactly 64 characters, all hex, byte
order reversed back (bitcoin::BlockHash FromStr). -/
def parseBlockHash (s : String) : Option BlockHash :=
  if s.data.length = 64 then
    match hexToBytes s.data with
    | some bs => some ⟨bs.reverse⟩
    | none => none
  else none

/-- Serialization of HashOrHeight under #[serde(untagged)]: a Hash
serializes as its hex string, a Height as a bare JSON number — no
discriminator field of any kind. -/
def serHashOrHeight : HashOrHeight → Json
  | .Hash h => .str (serBlockHash h)
  | .Height n => .num (n : Int)

/-- Deserialization of HashOrHeight under #[serde(untagged)]: the
variants are tried in declaration order against the buffered value.
Hash(BlockHash) accepts exactly a string of 64 hex digits; Height(u32)
accepts exactly an integer in [0, 2^32); every other value is rejected. -/
def deserHashOrHeight (j : Json) : Option HashOrHeight :=
  match j with
  | .str s =>
    match parseBlockHash s with
    | some h => some (.Hash h)
    | none => none
  | .num n => if 0 ≤ n ∧ n < 4294967296 then some (.Height n.toNat) else none
  | _ => none

-- Hex codec round-trip lemmas.

theorem hexDigit_roundtrip : ∀ d, d < 16 → hexDigitToNat (natToHexDigit d) = some d := by
  decide

theorem hexDigitToNat_lt : ∀ c d, hexDigitToNat c = some d → d < 16 := by
  intro c d h
  unfold hexDigitToNat at h
  split_ifs at h <;> simp_all <;> omega

theorem string_mk_data (cs : List Char) : (String.mk cs).data = cs := rfl

theorem bytesToHex_length : ∀ bs : List Nat, (bytesToHex bs).length = 2 * bs.length := by
  intro bs
  induction bs with
  | nil => rfl
  | cons b rest ih =>
    simp only [bytesToHex, List.length_cons, ih]
    omega

theorem hexToBytes_bytesToHex :
    ∀ bs : List Nat, (∀ b ∈ bs, b < 256) → hexToBytes (bytesToHex bs) = some bs := by
  intro bs
  induction bs with
  | nil => intro _; rfl
  | cons b rest ih =>
    intro hlt
    have hb : b < 256 := hlt b (List.mem_cons_self b rest)
    have hdiv : b / 16 < 16 := by omega
    have hmod : b % 16 < 16 := Nat.mod_lt b (by omega)
    have hrest : hexToBytes (bytesToHex rest) = some rest :=
      ih (fun x hx => hlt x (List.mem_cons_of_mem b hx))
    have hbm := Nat.div_add_mod b 16
    have hb2 : b / 16 * 16 + b % 16 = b := by omega
    simp only [bytesToHex, hexToBytes, hexDigit_roundtrip _ hdiv, hexDigit_roundtrip _ hmod,
      hrest, hb2]

theorem hexToBytes_length :
    ∀ n (cs : List Char) (bs : List Nat), cs.length ≤ n → hexToBytes cs = some bs →
      cs.length = 2 * bs.length := by
  intro n
  induction n with
  | zero =>
    intro cs bs hlen h
    match cs with
    | [] => cases h; rfl
    | [c] => cases h
    | c1 :: c2 :: rest => simp at hlen
  | succ n ih =>
    intro cs bs hlen h
    match cs with
    | [] => cases h; rfl
    | [c] => cases h
    | c1 :: c2 :: rest =>
      simp only [hexToBytes] at h
      cases h1 : hexDigitToNat c1 with
      | none => rw [h1] at h; cases h
      | some d1 =>
        cases h2 : hexDigitToNat c2 with
        | none => rw [h1, h2] at h; cases h
        | some d2 =>
          cases h3 : hexToBytes rest with
          | none => rw [h1, h2, h3] at h; cases h
          | some bs2 =>
            rw [h1, h2, h3] at h
            cases h
            have hr : rest.length ≤ n := by simp only [List.length_cons] at hlen; omega
            have hre := ih rest bs2 hr h3
            simp only [List.length_cons]
            omega

theorem hexToBytes_bytes_lt :
    ∀ n (cs : List Char) (bs : List Nat), cs.length ≤ n → hexToBytes cs = some bs →
      ∀ b ∈ bs, b < 256 := by
  intro n
  induction n with
  | zero =>
    intro cs bs hlen h
    match cs with
    | [] => cases h; intro b hb; cases hb
    | [c] => cases h
    | c1 :: c2 :: rest => simp at hlen
  | succ n ih =>
    intro cs bs hlen h
    match cs with
    | [] => cases h; intro b hb; cases hb
    | [c] => cases h
    | c1 :: c2 :: rest =>
      simp only [hexToBytes] at h
      cases h1 : hexDigitToNat c1 with
      | none => rw [h1] at h; cases h
      | some d1 =>
        cases h2 : hexDigitToNat c2 with
        | none => rw [h1, h2] at h; cases h
        | some d2 =>
          cases h3 : hexToBytes rest with
          | none => rw [h1, h2, h3] at h; cases h
          | some bs2 =>
            rw [h1, h2, h3] at h
            cases h
            have hd1 := hexDigitToNat_lt c1 d1 h1
            have hd2 := hexDigitToNat_lt c2 d2 h2
            have hr : rest.length ≤ n := by simp at hlen; omega
            intro b hb
            cases hb with
            | head => omega
            | tail _ hb2 => exact ih rest bs2 hr h3 b hb2

theorem parseBlockHash_serBlockHash (h : BlockHash) (hv : ValidBlockHash h) :
    parseBlockHash (serBlockHash h) = some h := by
  obtain ⟨hlen, hlt⟩ := hv
  have hrevlt : ∀ b ∈ h.bytes.reverse, b < 256 := by
    intro b hb
    exact hlt b (List.mem_reverse.mp hb)
  have hdec : hexToBytes (bytesToHex h.bytes.reverse) = some h.bytes.reverse :=
    hexToBytes_bytesToHex _ hrevlt
  have hlen2 : (bytesToHex h.bytes.reverse).length = 64 := by
    rw [bytesToHex_length, List.length_reverse, hlen]
  simp only [parseBlockHash, serBlockHash, string_mk_data]
  rw [if_pos hlen2, hdec]
  simp [List.reverse_reverse]

theorem parseBlockHash_valid (s : String) (h : BlockHash)
    (hp : parseBlockHash s = some h) : ValidBlockHash h := by
  unfold parseBlockHash at hp
  by_cases hc : s.data.length = 64
  · rw [if_pos hc] at hp
    cases h3 : hexToBytes s.data with
    | none => rw [h3] at hp; cases hp
    | some bs =>
      rw [h3] at hp
      cases hp
      constructor
      · have hl := hexToBytes_length s.data.length s.data bs (Nat.le_refl _) h3
        simp only [List.length_reverse]
        omega
      · intro b hb
        exact hexToBytes_bytes_lt s.data.length s.data bs (Nat.le_refl _) h3 b
          (List.mem_reverse.mp hb)
  · rw [if_neg hc] at hp
    cases hp


/-- Modelled from the spec: the normalization operation `post_process` is
not present in src (in this variant of the crate, `required` is the
computed getter above and the loader performs no rewrite pass); the spec
describes result nodes carrying a stored `required` flag that the pass
recomputes.  This type is the spec view of a result node: the source
fields plus the stored derived flag. -/
inductive BtcResultN where
  | mk (type_ : String) (optional : Bool) (description : String)
      (skip_type_check : Bool) (key_name : String) (condition : String)
      (required : Bool) (inner : List BtcResultN)

/-- Modelled from the spec: `post_process` "sets required = !optional on
the node, then recurses into every child in inner, applying the same
rule" — a pure depth-first tree walk with no early termination. -/
def post_process : BtcResultN → BtcResultN
  | .mk t o d s k c _ inner =>
    .mk t o d s k c (!o) (inner.attach.map (fun x => post_process x.1))
decreasing_by
  have hmem := List.sizeOf_lt_of_mem x.2
  simp only [BtcResultN.mk.sizeOf_spec]
  omega

theorem post_process_eq (t : String) (o : Bool) (d : String) (s : Bool) (k c : String)
    (r : Bool) (inner : List BtcResultN) :
    post_process (.mk t o d s k c r inner) = .mk t o d s k c (!o) (inner.map post_process) := by
  rw [post_process]
  congr 1
  rw [← List.attach_map_coe inner post_process]

/-- A freshly-deserialized tree on the spec view: every stored required
flag holds the transient default false, awaiting normalization. -/
def annotateDefault : BtcResult → BtcResultN
  | .mk t o d s k c inner =>
    .mk t o d s k c false (inner.attach.map (fun x => annotateDefault x.1))
decreasing_by
  have hmem := List.sizeOf_lt_of_mem x.2
  simp only [BtcResult.mk.sizeOf_spec]
  omega

theorem annotateDefault_eq (t : String) (o : Bool) (d : String) (s : Bool) (k c : String)
    (inner : List BtcResult) :
    annotateDefault (.mk t o d s k c inner) =
      .mk t o d s k c false (inner.map annotateDefault) := by
  rw [annotateDefault]
  congr 1
  rw [← List.attach_map_coe inner annotateDefault]

/-- The observable content of a loaded source tree on the spec view:
every stored required flag holds the value of the source getter
`BtcResult.required`, i.e. `!optional`, at every node. -/
def annotateComputed : BtcResult → BtcResultN
  | .mk t o d s k c inner =>
    .mk t o d s k c (BtcResult.required (.mk t o d s k c inner))
      (inner.attach.map (fun x => annotateComputed x.1))
decreasing_by
  have hmem := List.sizeOf_lt_of_mem x.2
  simp only [BtcResult.mk.sizeOf_spec]
  omega

theorem annotateComputed_eq (t : String) (o : Bool) (d : String) (s : Bool) (k c : String)
    (inner : List BtcResult) :
    annotateComputed (.mk t o d s k c inner) =
      .mk t o d s k c (!o) (inner.map annotateComputed) := by
  rw [annotateComputed]
  congr 1
  rw [← List.attach_map_coe inner annotateComputed]

/-- Normalizing a freshly-deserialized tree yields exactly the observable
content of the corresponding loaded source tree: the stored required flag
agrees with the source getter at every node. -/
theorem post_process_annotateDefault_aux :
    ∀ n (r : BtcResult), sizeOf r ≤ n →
      post_process (annotateDefault r) = annotateComputed r := by
  intro n
  induction n with
  | zero =>
    intro r hr
    cases r with
    | mk t o d s k c inner =>
      simp only [BtcResult.mk.sizeOf_spec] at hr
      omega
  | succ n ih =>
    intro r hr
    cases r with
    | mk t o d s k c inner =>
      rw [annotateDefault_eq, post_process_eq, annotateComputed_eq]
      congr 1
      rw [List.map_map]
      apply List.map_congr_left
      intro x hx
      have hlt := List.sizeOf_lt_of_mem hx
      simp only [BtcResult.mk.sizeOf_spec] at hr
      exact ih x (by omega)

theorem post_process_annotateDefault (r : BtcResult) :
    post_process (annotateDefault r) = annotateComputed r :=
  post_process_annotateDefault_aux (sizeOf r) r (Nat.le_refl _)

/-- Idempotence core: normalization applied twice equals normalization
applied once, proved by strong induction on the tree size. -/
theorem post_process_idem_aux :
    ∀ n (t : BtcResultN), sizeOf t ≤ n →
      post_process (post_process t) = post_process t := by
  intro n
  induction n with
  | zero =>
    intro t ht
    cases t with
    | mk ty o d s k c r inner =>
      simp only [BtcResultN.mk.sizeOf_spec] at ht
      omega
  | succ n ih =>
    intro t ht
    cases t with
    | mk ty o d s k c r inner =>
      rw [post_process_eq, post_process_eq]
      congr 1
      rw [List.map_map]
      apply List.map_congr_left
      intro x hx
      have hlt := List.sizeOf_lt_of_mem hx
      simp only [BtcResultN.mk.sizeOf_spec] at ht
      exact ih x (by omega)

/-- Every node of a result tree satisfies the predicate, at every depth. -/
inductive AllNodes (p : BtcResult → Prop) : BtcResult → Prop where
  | node (t : String) (o : Bool) (d : String) (s : Bool) (k c : String)
      (inner : List BtcResult) :
      p (.mk t o d s k c inner) → (∀ r ∈ inner, AllNodes p r) →
      AllNodes p (.mk t o d s k c inner)

/-- In the source model, requiredness is the getter `!optional`, so the
required/optional relation holds on every node of every tree. -/
theorem allNodes_required_aux :
    ∀ n (r : BtcResult), sizeOf r ≤ n →
      AllNodes (fun x => x.required = !x.optional) r := by
  intro n
  induction n with
  | zero =>
    intro r hr
    cases r with
    | mk t o d s k c inner =>
      simp only [BtcResult.mk.sizeOf_spec] at hr
      omega
  | succ n ih =>
    intro r hr
    cases r with
    | mk t o d s k c inner =>
      refine AllNodes.node t o d s k c inner rfl ?_
      intro x hx
      have hlt := List.sizeOf_lt_of_mem hx
      simp only [BtcResult.mk.sizeOf_spec] at hr
      exact ih x (by omega)

theorem allNodes_required (r : BtcResult) :
    AllNodes (fun x => x.required = !x.optional) r :=
  allNodes_required_aux (sizeOf r) r (Nat.le_refl _)

/-- The loading pipeline, characterized: from_file succeeds exactly when
the read succeeds, the textual parse succeeds, and the structural
deserialization succeeds, and then returns that very definition. -/
theorem from_file_ok_iff (fs : String → Except String String)
    (dec : String → Except String Json) (path : String) (d : ApiDefinition) :
    from_file fs dec path = .ok d ↔
      ∃ content j, fs path = .ok content ∧ dec content = .ok j ∧
        deserApiDefinitionF (content.length + 1) j = some d := by
  constructor
  · intro h
    unfold from_file at h
    split at h
    next e heq => cases h
    next content heq =>
      split at h
      next e heq2 => cases h
      next j heq2 =>
        split at h
        next heq3 => cases h
        next d2 heq3 =>
          cases h
          exact ⟨content, j, heq, heq2, heq3⟩
  · rintro ⟨content, j, hfs, hdec, hdes⟩
    unfold from_file
    simp only [hfs, hdec, hdes]

/-- Removal of every binding of one key from a JSON object, used to state
that serde ignores a field it does not know. -/
def removeField (key : String) : List (String × Json) → List (String × Json)
  | [] => []
  | (k, v) :: rest =>
    if k = key then removeField key rest else (k, v) :: removeField key rest

theorem lookup_removeField (fields : List (String × Json)) (key k : String)
    (h : k ≠ key) : lookupField (removeField key fields) k = lookupField fields k := by
  induction fields with
  | nil => rfl
  | cons kv rest ih =>
    obtain ⟨k2, v⟩ := kv
    by_cases h2 : k2 = key
    · have hne : ¬ (k2 = k) := fun hk => h (hk ▸ h2)
      simp only [removeField, if_pos h2, lookupField, if_neg hne, ih]
    · simp only [removeField, if_neg h2, lookupField]
      by_cases h3 : k2 = k
      · rw [if_pos h3, if_pos h3]
      · rw [if_neg h3, if_neg h3, ih]

-- Concrete documents used to exercise the loader, mirroring the
-- repository own test data (src/types.rs tests), with the result tree
-- deepened to three levels of mixed optionality.

def jsonSimple : Json :=
  .obj [("rpcs", .obj [("simple_method", .obj [
    ("name", .str "simple_method"),
    ("description", .str "A simple method"),
    ("examples", .str ""),
    ("argument_names", .arr []),
    ("arguments", .arr []),
    ("results", .arr [])])])]

def mSimple : BtcMethod := ⟨"simple_method", "A simple method", "", [], [], []⟩

def apiSimple : ApiDefinition := ⟨[("simple_method", mSimple)]⟩

def jsonLeaf : Json :=
  .obj [("type", .str "string"), ("optional", .bool true),
    ("description", .str "Leaf value")]

def jsonMid : Json :=
  .obj [("type", .str "object"), ("optional", .bool false),
    ("description", .str "Inner result"), ("key_name", .str "inner_key"),
    ("inner", .arr [jsonLeaf])]

def jsonOuter : Json :=
  .obj [("type", .str "object"), ("optional", .bool true),
    ("description", .str "Block information"), ("skip_type_check", .bool false),
    ("inner", .arr [jsonMid])]

def jsonArgGB : Json :=
  .obj [("names", .arr [.str "blockhash"]), ("description", .str "The block hash"),
    ("required", .bool true), ("type", .str "string")]

def jsonGB : Json :=
  .obj [("rpcs", .obj [("getblock", .obj [
    ("name", .str "getblock"),
    ("description", .str "Get block information"),
    ("argument_names", .arr [.str "blockhash", .str "verbosity"]),
    ("arguments", .arr [jsonArgGB]),
    ("results", .arr [jsonOuter])])])]

def rLeaf : BtcResult := .mk "string" true "Leaf value" false "" "" []

def rMid : BtcResult := .mk "object" false "Inner result" false "inner_key" "" [rLeaf]

def rOuter : BtcResult := .mk "object" true "Block information" false "" "" [rMid]

def argGB : BtcArgument :=
  ⟨["blockhash"], "The block hash", "", false, none, true, false, "string"⟩

def mGB : BtcMethod :=
  ⟨"getblock", "Get block information", "", ["blockhash", "verbosity"], [argGB], [rOuter]⟩

def apiGB : ApiDefinition := ⟨[("getblock", mGB)]⟩

-- Concrete instantiations of the external collaborators: a file system
-- holding one document, and a textual codec recognizing exactly it.

def fsSimple : String → Except String String :=
  fun p => if p = "api.json" then .ok "simple-doc" else .error "No such file or directory"

def decSimple : String → Except String Json :=
  fun s => if s = "simple-doc" then .ok jsonSimple else .error "expected value"

def fsGB : String → Except String String :=
  fun p => if p = "api.json" then .ok "getblock-doc" else .error "No such file or directory"

def decGB : String → Except String Json :=
  fun s => if s = "getblock-doc" then .ok jsonGB else .error "expected value"

def fsMissing : String → Except String String :=
  fun _ => .error "No such file or directory"

def fsNotJson : String → Except String String :=
  fun _ => .ok "not json"

def decFail : String → Except String Json :=
  fun _ => .error "expected value"

/-- A document whose top-level object lacks the mandatory rpcs field. -/
def jsonNoRpcs : Json := .obj []

/-- A document whose single method lacks the mandatory description
field (a required field absent with no default). -/
def jsonMissingDesc : Json :=
  .obj [("rpcs", .obj [("m", .obj [("name", .str "m"),
    ("arguments", .arr []), ("results", .arr [])])])]

/-- A valid 32-byte hash payload used as a round-trip input. -/
def hashW : BlockHash := ⟨List.range 32⟩

/-- Claim C1: the load operation, for any path, reads the textual content
at that path, deserializes it into an ApiDefinition, and returns a
definition every one of whose result trees is in post_process-normal
form: the tree, freshly annotated with the transient default required
flag and run through the spec post_process, coincides with the
observable content of the returned tree (stored required equal to the
computed required at every node, recursively through inner).  In this
variant of the crate required is a computed getter, so the normalization
adds nothing beyond deserialization, and the pipeline equation makes
that explicit. -/
theorem from_file_applies_post_process
    (fs : String → Except String String) (dec : String → Except String Json)
    (path : String) (d : ApiDefinition) :
    (from_file fs dec path = .ok d ↔
      ∃ content j, fs path = .ok content ∧ dec content = .ok j ∧
        deserApiDefinitionF (content.length + 1) j = some d)
    ∧ (from_file fs dec path = .ok d →
        ∀ kv ∈ d.rpcs, ∀ r ∈ kv.2.results,
          post_process (annotateDefault r) = annotateComputed r) := by
  refine ⟨from_file_ok_iff fs dec path d, ?_⟩
  intro _ kv _ r _
  exact post_process_annotateDefault r

/-- Witness for C1 at a concrete loaded document. -/
theorem from_file_applies_post_process_witness :
    from_file fsGB decGB "api.json" = .ok apiGB ∧
      post_process (annotateDefault rOuter) = annotateComputed rOuter := by
  have h := from_file_applies_post_process fsGB decGB "api.json" apiGB
  have hok : from_file fsGB decGB "api.json" = .ok apiGB :=
    h.1.mpr ⟨"getblock-doc", jsonGB, rfl, rfl, rfl⟩
  exact ⟨hok, h.2 hok ("getblock", mGB) (List.mem_cons_self _ _) rOuter
    (List.mem_cons_self _ _)⟩

/-- Claim C2: the untagged serde encoding of HashOrHeight round-trips:
for every valid 32-byte hash payload, decoding the encoding of Hash h
yields Hash h with the identical byte sequence; for every height below
2^32, decoding the encoding of Height n yields Height n; and the encoded
form carries no discriminator tag — it is a bare string or a bare
number. -/
theorem hash_or_height_roundtrip :
    (∀ h : BlockHash, ValidBlockHash h →
      deserHashOrHeight (serHashOrHeight (.Hash h)) = some (.Hash h))
    ∧ (∀ n : Nat, n < 4294967296 →
      deserHashOrHeight (serHashOrHeight (.Height n)) = some (.Height n))
    ∧ (∀ v : HashOrHeight,
      (∃ s, serHashOrHeight v = .str s) ∨ (∃ k, serHashOrHeight v = .num k)) := by
  refine ⟨?_, ?_, ?_⟩
  · intro h hv
    simp only [serHashOrHeight, deserHashOrHeight, parseBlockHash_serBlockHash h hv]
  · intro n hn
    have h0 : (0 : Int) ≤ (n : Int) := Int.natCast_nonneg n
    have h1 : (n : Int) < 4294967296 := by exact_mod_cast hn
    simp only [serHashOrHeight, deserHashOrHeight, if_pos (And.intro h0 h1),
      Int.toNat_natCast]
  · intro v
    cases v with
    | Hash h => exact Or.inl ⟨serBlockHash h, rfl⟩
    | Height n => exact Or.inr ⟨(n : Int), rfl⟩

/-- Witness for C2 at a concrete 32-byte payload and a concrete height. -/
theorem hash_or_height_roundtrip_witness :
    ValidBlockHash hashW
    ∧ deserHashOrHeight (serHashOrHeight (.Hash hashW)) = some (.Hash hashW)
    ∧ (123 : Nat) < 4294967296
    ∧ deserHashOrHeight (serHashOrHeight (.Height 123)) = some (.Height 123) := by
  have hv : ValidBlockHash hashW := by
    constructor
    · rfl
    · decide
  exact ⟨hv, hash_or_height_roundtrip.1 hashW hv, by norm_num,
    hash_or_height_roundtrip.2.1 123 (by norm_num)⟩

/-- Claim C3: every node of every result tree, at every depth, satisfies
required = !optional (in this variant by the computed getter, so the
invariant holds on any tree the loader can return); concretely, loading
the getblock document — a depth-3 tree with mixed optional values —
yields required false on the outer optional node, required true on the
middle non-optional node, and required false on the optional leaf. -/
theorem loaded_required_invariant :
    (∀ r : BtcResult, AllNodes (fun x => x.required = !x.optional) r)
    ∧ from_file fsGB decGB "api.json" = .ok apiGB
    ∧ apiGB.get_method "getblock" = some mGB
    ∧ mGB.results = [rOuter]
    ∧ rOuter.inner = [rMid]
    ∧ rMid.inner = [rLeaf]
    ∧ rOuter.optional = true ∧ rOuter.required = false
    ∧ rMid.optional = false ∧ rMid.required = true
    ∧ rLeaf.optional = true ∧ rLeaf.required = false :=
  ⟨allNodes_required, rfl, rfl, rfl, rfl, rfl, rfl, rfl, rfl, rfl, rfl, rfl⟩

/-- Claim C4: loading from an unreadable path fails with the Io kind of
SchemaError; content the codec rejects, and content whose structure the
schema cannot fill (a mandatory field absent with no default), fail with
the JsonParse kind; and the call is exclusively either a complete
definition or an error, a success implying a fully successful
read-parse-deserialize chain. -/
theorem from_file_error_taxonomy
    (fs : String → Except String String) (dec : String → Except String Json)
    (path : String) :
    (∀ e, fs path = .error e → from_file fs dec path = .error (.Io e))
    ∧ (∀ content e, fs path = .ok content → dec content = .error e →
        from_file fs dec path = .error (.JsonParse e))
    ∧ (∀ content j, fs path = .ok content → dec content = .ok j →
        deserApiDefinitionF (content.length + 1) j = none →
        from_file fs dec path = .error (.JsonParse "data did not match the expected structure"))
    ∧ ((∃ d, from_file fs dec path = .ok d) ∨ (∃ e, from_file fs dec path = .error e))
    ∧ (∀ d, from_file fs dec path = .ok d →
        ∃ content j, fs path = .ok content ∧ dec content = .ok j ∧
          deserApiDefinitionF (content.length + 1) j = some d)
    ∧ (∀ fuel, deserApiDefinitionF fuel jsonNoRpcs = none)
    ∧ (∀ fuel, deserApiDefinitionF fuel jsonMissingDesc = none) := by
  refine ⟨?_, ?_, ?_, ?_, ?_, fun _ => rfl, fun _ => rfl⟩
  · intro e he
    unfold from_file
    simp only [he]
  · intro content e hc he
    unfold from_file
    simp only [hc, he]
  · intro content j hc hj hd
    unfold from_file
    simp only [hc, hj, hd]
  · cases hr : from_file fs dec path with
    | ok d => exact Or.inl ⟨d, rfl⟩
    | error e => exact Or.inr ⟨e, rfl⟩
  · intro d hd
    exact (from_file_ok_iff fs dec path d).mp hd

/-- Witness for C4: a missing file yields the Io kind, unparseable bytes
yield the JsonParse kind. -/
theorem from_file_error_taxonomy_witness :
    from_file fsMissing decFail "nonexistent_file.json" =
      .error (.Io "No such file or directory")
    ∧ from_file fsNotJson decFail "bad.json" = .error (.JsonParse "expected value") :=
  ⟨(from_file_error_taxonomy fsMissing decFail "nonexistent_file.json").1
      "No such file or directory" rfl,
    (from_file_error_taxonomy fsNotJson decFail "bad.json").2.1
      "not json" "expected value" rfl rfl⟩

/-- Claim C5: a result object carrying a "required" field deserializes
exactly as the same object without it (serde ignores the unknown field),
and the required value observed on any BtcResult is determined solely by
its optional field; concretely an input with required true but optional
true parses successfully and exhibits required false. -/
theorem required_field_ignored :
    (∀ fuel fields, deserResultF fuel (.obj (removeField "required" fields)) =
        deserResultF fuel (.obj fields))
    ∧ (∀ r : BtcResult, r.required = !r.optional)
    ∧ deserResultF 1 (.obj [("type", .str "string"), ("description", .str "d"),
        ("required", .bool true), ("optional", .bool true)]) =
        some (.mk "string" true "d" false "" "" [])
    ∧ (BtcResult.mk "string" true "d" false "" "" []).required = false := by
  refine ⟨?_, fun _ => rfl, rfl, rfl⟩
  intro fuel fields
  cases fuel with
  | zero => rfl
  | succ f =>
    simp only [deserResultF]
    rw [lookup_removeField fields "required" "type" (by decide),
      lookup_removeField fields "required" "optional" (by decide),
      lookup_removeField fields "required" "description" (by decide),
      lookup_removeField fields "required" "skip_type_check" (by decide),
      lookup_removeField fields "required" "key_name" (by decide),
      lookup_removeField fields "required" "condition" (by decide),
      lookup_removeField fields "required" "inner" (by decide)]

/-- Claim C6: as_hash yields a value exactly when is_hash holds and
as_height exactly when is_height holds; when present the payload is
exactly the active variant payload, and both projections are total
functions into Option (they never raise). -/
theorem as_projections (v : HashOrHeight) :
    (v.as_hash.isSome = v.is_hash)
    ∧ (v.as_height.isSome = v.is_height)
    ∧ (∀ h, v.as_hash = some h → v = .Hash h)
    ∧ (∀ n, v.as_height = some n → v = .Height n) := by
  cases v with
  | Hash h =>
    refine ⟨rfl, rfl, ?_, ?_⟩
    · intro x hx
      cases hx
      rfl
    · intro n hn
      cases hn
  | Height n =>
    refine ⟨rfl, rfl, ?_, ?_⟩
    · intro x hx
      cases hx
    · intro m hm
      cases hm
      rfl

/-- Witness for C6 at concrete values of both variants. -/
theorem as_projections_witness :
    (HashOrHeight.Height 7).as_height.isSome = (HashOrHeight.Height 7).is_height
    ∧ HashOrHeight.Height 7 = HashOrHeight.Height 7
    ∧ (HashOrHeight.Hash hashW).as_hash.isSome = (HashOrHeight.Hash hashW).is_hash
    ∧ HashOrHeight.Hash hashW = HashOrHeight.Hash hashW :=
  ⟨(as_projections (.Height 7)).2.1, (as_projections (.Height 7)).2.2.2 7 rfl,
    (as_projections (.Hash hashW)).1, (as_projections (.Hash hashW)).2.2.1 hashW rfl⟩

/-- Claim C7: over the closed two-variant union, is_hash and is_height
are mutually exclusive and exhaustive: exactly one of them holds for any
value. -/
theorem variant_predicates_exclusive_exhaustive (v : HashOrHeight) :
    ((v.is_hash && v.is_height) = false) ∧ ((v.is_hash || v.is_height) = true) := by
  cases v with
  | Hash h => exact ⟨rfl, rfl⟩
  | Height n => exact ⟨rfl, rfl⟩

/-- Claim C8: normalization of a result tree is idempotent — applying the
spec post_process twice yields a tree structurally identical to
applying it once, since each application reads only optional (which the
pass never mutates) to recompute required. -/
theorem post_process_idempotent (t : BtcResultN) :
    post_process (post_process t) = post_process t :=
  post_process_idem_aux (sizeOf t) t (Nat.le_refl _)

/-- Claim C9: loading a well-formed document holding exactly one method
named simple_method, with no arguments and no results, yields an
ApiDefinition with exactly one entry; get_method on that exact name
returns that method, and get_method on any other name returns none
without raising. -/
theorem simple_method_load_and_lookup
    (fs : String → Except String String) (dec : String → Except String Json)
    (path content : String)
    (hfs : fs path = .ok content) (hdec : dec content = .ok jsonSimple) :
    from_file fs dec path = .ok apiSimple
    ∧ apiSimple.rpcs.length = 1
    ∧ apiSimple.get_method "simple_method" = some mSimple
    ∧ (∀ name, name ≠ "simple_method" → apiSimple.get_method name = none) := by
  refine ⟨?_, rfl, rfl, ?_⟩
  · have hd : deserApiDefinitionF (content.length + 1) jsonSimple = some apiSimple := rfl
    unfold from_file
    simp only [hfs, hdec, hd]
  · intro name hne
    show (if "simple_method" = name then some mSimple else findEntry [] name) = none
    rw [if_neg (fun hk => hne hk.symm)]
    rfl

/-- Witness for C9 at the concrete single-document file system. -/
theorem simple_method_load_and_lookup_witness :
    from_file fsSimple decSimple "api.json" = .ok apiSimple
    ∧ apiSimple.get_method "gettransaction" = none := by
  have h := simple_method_load_and_lookup fsSimple decSimple "api.json" "simple-doc" rfl rfl
  exact ⟨h.1, h.2.2.2 "gettransaction" (by decide)⟩

/-- Claim C10: decoding a HashOrHeight is total and closed — every JSON
value either decodes to nothing, or is a string carrying a valid 32-byte
hash and decodes to Hash of it, or is an integer in [0, 2^32) and
decodes to Height of it; in particular a negative number, a number at or
above 2^32, a boolean, an array, an object and null are all rejected,
and no input is ever misclassified into the other variant. -/
theorem deser_hash_or_height_closed :
    (∀ j : Json, deserHashOrHeight j = none
      ∨ (∃ s h, j = .str s ∧ ValidBlockHash h ∧ deserHashOrHeight j = some (.Hash h))
      ∨ (∃ n : Nat, n < 4294967296 ∧ j = .num (n : Int) ∧
          deserHashOrHeight j = some (.Height n)))
    ∧ deserHashOrHeight (.num (-1)) = none
    ∧ deserHashOrHeight (.num 4294967296) = none
    ∧ deserHashOrHeight (.bool true) = none
    ∧ deserHashOrHeight (.arr []) = none
    ∧ deserHashOrHeight (.obj []) = none
    ∧ deserHashOrHeight .null = none := by
  refine ⟨?_, by norm_num [deserHashOrHeight], by norm_num [deserHashOrHeight],
    rfl, rfl, rfl, rfl⟩
  intro j
  cases j with
  | null => exact Or.inl rfl
  | bool b => exact Or.inl rfl
  | arr xs => exact Or.inl rfl
  | obj fields => exact Or.inl rfl
  | str s =>
    cases hp : parseBlockHash s with
    | none =>
      refine Or.inl ?_
      simp only [deserHashOrHeight, hp]
    | some h =>
      refine Or.inr (Or.inl ⟨s, h, rfl, parseBlockHash_valid s h hp, ?_⟩)
      simp only [deserHashOrHeight, hp]
  | num n =>
    by_cases hc : 0 ≤ n ∧ n < 4294967296
    · refine Or.inr (Or.inr ⟨n.toNat, by omega, ?_, ?_⟩)
      · congr 1
        omega
      · simp only [deserHashOrHeight, if_pos hc]
    · refine Or.inl ?_
      simp only [deserHashOrHeight, if_neg hc]
